import Mathlib

/-!
Verification of the bare-string detection rule
(`lib/rules/no-bare-strings-in-template.js`).

Strings are embedded as `List Char` (JavaScript strings, viewed as
sequences of Unicode code points, which is what the `u` regex flag
selects). JavaScript `Set<string>` values are embedded as duplicate-free
lists built in insertion order, and the per-run cache object as an
association list. The rule body is a pure visitor over an embedded
template AST; `context.report` calls are collected into a list of
findings, and a JavaScript `TypeError` (reading a property of `null`)
is an `Except.error`.

The helper modules `utils/regexp` and `utils/casing` are not part of the
sources; where the rule calls them, the definitions below are modelled
from the spec and say so in their doc comments.
-/

/-- Whitespace as `trim` sees it: space, tab, carriage return, newline. -/
def wsChar (c : Char) : Bool := c.isWhitespace

/-- JavaScript `str.trim()`: drop whitespace from both ends. -/
def jsTrim (s : List Char) : List Char :=
  ((s.dropWhile wsChar).reverse.dropWhile wsChar).reverse

/-- The alternation `e1|e2|...` of the escaped whitelist entries, tried at one
position: the first entry that occurs literally at the front of `s`
(`regexp.escape` makes every entry literal, so each alternative is a plain
string match; a JavaScript regex tries alternatives left to right). -/
def firstAlt (pats : List (List Char)) (s : List Char) : Option (List Char) :=
  pats.find? (fun p => p.isPrefixOf s)

/-- JavaScript `str.replace(whitelistRe, '')` for the global alternation of
literal entries: scan left to right; where some entry matches, delete it and
continue after it (matches are non-overlapping); a match of the empty entry
deletes nothing and the scan moves on one code point. -/
def removeMatches (pats : List (List Char)) : List Char → List Char
  | [] => []
  | c :: rest =>
    match firstAlt pats (c :: rest) with
    | some [] => c :: removeMatches pats rest
    | some (_ :: ps) => removeMatches pats (rest.drop ps.length)
    | none => c :: removeMatches pats rest
termination_by s => s.length
decreasing_by
  all_goals simp only [List.length_cons, List.length_drop]
  all_goals omega

/-- The rule's `getBareString`: `str.trim().replace(whitelistRe, '').trim()`. -/
def getBareString (pats : List (List Char)) (str : List Char) : List Char :=
  jsTrim (removeMatches pats (jsTrim str))

/-- The rule's `DEFAULT_WHITELIST` constant (each entry one character). -/
def DEFAULT_WHITELIST : List (List Char) :=
  [['('], [')'], [','], ['.'], ['&'], ['+'], ['-'], ['='], ['*'], ['/'],
   ['#'], ['%'], ['!'], ['?'], [':'], ['['], [']'], ['\x7b'], ['\x7d'],
   ['<'], ['>'], ['·'], ['•'], ['‐'], ['–'],
   ['—'], ['−'], ['|']]

/-- The rule's `DEFAULT_DIRECTIVES` constant. -/
def DEFAULT_DIRECTIVES : List (List Char) := [('v' :: '-' :: "text".toList)]

/-- Modelled from the spec: `casing.isKebabCase` (from `utils/casing`, which
is outside the sources). A tag name is written in the lowercase
hyphen-delimited kebab convention when it starts with a lowercase letter and
consists of lowercase letters, digits and hyphens. -/
def isKebabCase (s : List Char) : Bool :=
  match s with
  | [] => false
  | c :: _ => c.isLower && s.all (fun x => x.isLower || x.isDigit || x = '-')

/-- Helper for `pascalCase`: `up` records whether the next letter starts a
word (at the front, or right after a hyphen) and is upcased. -/
def pascalGo (up : Bool) : List Char → List Char
  | [] => []
  | c :: rest =>
    if c = '-' then pascalGo true rest
    else (if up then c.toUpper else c) :: pascalGo false rest

/-- Modelled from the spec: `casing.pascalCase` (from `utils/casing`, which
is outside the sources), a pure string transformation: drop the hyphens and
upcase the first letter of every hyphen-delimited word. -/
def pascalCase (s : List Char) : List Char := pascalGo true s

/-- One pattern-keyed entry of the parsed `attributes` option: `name` is the
compiled tag-name regex, embedded as the predicate its `test` computes
(`regexp.toRegExp` is outside the sources; the rule resets `lastIndex` before
every `test`, so `test` is a pure predicate on the tag name), and `attrs` the
attribute set for tags it matches. -/
structure RegexpEntry where
  name : List Char → Bool
  attrs : List (List Char)

/-- The parsed `attributes` option (the `TargetAttrs` record of the rule,
without its `cache` field, which is threaded explicitly below): exact
tag-name entries and pattern entries. -/
structure TargetAttrs where
  names : List (List Char × List (List Char))
  regexps : List RegexpEntry

/-- The memoization cache `attributes.cache`, an association list from tag
name to resolved attribute set (newest entry first). -/
abbrev Cache := List (List Char × List (List Char))

/-- Lookup in an association list (a JavaScript object used as a map; a
present entry is a `Set`, which is truthy even when empty). -/
def alookup (k : List Char) : Cache → Option (List (List Char))
  | [] => none
  | (k2, v) :: rest => if k = k2 then some v else alookup k rest

/-- JavaScript `new Set(result)`: the elements of `result` in insertion
order, first occurrence kept. -/
def setOfList : List (List Char) → List (List Char)
  | [] => []
  | x :: rest => x :: (setOfList rest).filter (fun y => !(y == x))

/-- The exact-name part of the resolution: `attributes.names[tagName]`
spread into `result` when present. -/
def namesAttrs (ta : TargetAttrs) (tagName : List Char) : List (List Char) :=
  match alookup tagName ta.names with
  | some attrs => attrs
  | none => []

/-- The pattern part of the resolution: for every pattern entry whose regex
accepts `tagName`, its attribute set spread into `result`, in entry order. -/
def regexpAttrs (ta : TargetAttrs) (tagName : List Char) : List (List Char) :=
  (ta.regexps.map (fun e => if e.name tagName then e.attrs else [])).flatten

/-- The rule's `getTargetAttrs`: on a cache hit return the cached set,
otherwise accumulate the exact-name entry, the matching pattern entries and,
for a kebab-case name, the recursive resolution of its PascalCase form, then
cache `new Set(result)` under the original name. Returns the resolved set
together with the updated cache. -/
def getTargetAttrs (ta : TargetAttrs) (cache : Cache) (tagName : List Char) :
    List (List Char) × Cache :=
  match alookup tagName cache with
  | some v => (v, cache)
  | none =>
    let result1 := namesAttrs ta tagName ++ regexpAttrs ta tagName
    if h : isKebabCase tagName = true then
      let inner := getTargetAttrs ta cache (pascalCase tagName)
      let r := setOfList (result1 ++ inner.1)
      (r, (tagName, r) :: inner.2)
    else
      let r := setOfList result1
      (r, (tagName, r) :: cache)
termination_by (if isKebabCase tagName = true then 1 else 0)
decreasing_by
  have hfalse : isKebabCase (pascalCase tagName) = false := by
    cases hs : tagName with
    | nil => rw [hs] at h; simp [isKebabCase] at h
    | cons c rest =>
      rw [hs] at h
      simp only [isKebabCase, Bool.and_eq_true] at h
      have hc : c.isLower = true := h.1
      have hcm : ¬ (c = '-') := by
        intro e
        rw [e] at hc
        exact absurd hc (by decide)
      have hle : ∀ (a b : UInt32), a ≤ b ↔ a.toNat ≤ b.toNat := by
        intro a b
        rw [UInt32.le_def]
        exact Iff.rfl
      have hup : (c.toUpper).isLower = false := by
        simp only [Char.isLower, Char.toUpper, Char.toNat, decide_eq_true_eq,
          Bool.and_eq_true] at hc ⊢
        obtain ⟨h1, h2⟩ := hc
        have h1n : 97 ≤ c.val.toNat := by simpa using (hle _ _).mp h1
        have h2n : c.val.toNat ≤ 122 := by simpa using (hle _ _).mp h2
        rw [if_pos ⟨h1n, h2n⟩]
        have hv : Nat.isValidChar (c.val.toNat - 32) := Or.inl (by omega)
        have hval : (Char.ofNat (c.val.toNat - 32)).val.toNat
            = c.val.toNat - 32 := by
          rw [Char.ofNat, dif_pos hv]
          rfl
        rw [Bool.and_eq_false_iff]
        left
        rw [decide_eq_false_iff_not]
        intro hge
        have h3 := (hle _ _).mp hge
        rw [hval] at h3
        have h97 : (97 : UInt32).toNat = 97 := by decide
        rw [h97] at h3
        omega
      simp only [pascalCase, pascalGo, if_neg hcm, if_true]
      simp [isKebabCase, hup]
  rw [hfalse, h]
  simp

/-- The resolution algorithm recomputed without consulting or writing any
cache (the uncached recomputation the spec compares the memoized result
against). -/
def getTargetAttrsNoCache (ta : TargetAttrs) (tagName : List Char) :
    List (List Char) :=
  let result1 := namesAttrs ta tagName ++ regexpAttrs ta tagName
  if h : isKebabCase tagName = true then
    setOfList (result1 ++ getTargetAttrsNoCache ta (pascalCase tagName))
  else
    setOfList result1
termination_by (if isKebabCase tagName = true then 1 else 0)
decreasing_by
  have hfalse : isKebabCase (pascalCase tagName) = false := by
    cases hs : tagName with
    | nil => rw [hs] at h; simp [isKebabCase] at h
    | cons c rest =>
      rw [hs] at h
      simp only [isKebabCase, Bool.and_eq_true] at h
      have hc : c.isLower = true := h.1
      have hcm : ¬ (c = '-') := by
        intro e
        rw [e] at hc
        exact absurd hc (by decide)
      have hle : ∀ (a b : UInt32), a ≤ b ↔ a.toNat ≤ b.toNat := by
        intro a b
        rw [UInt32.le_def]
        exact Iff.rfl
      have hup : (c.toUpper).isLower = false := by
        simp only [Char.isLower, Char.toUpper, Char.toNat, decide_eq_true_eq,
          Bool.and_eq_true] at hc ⊢
        obtain ⟨h1, h2⟩ := hc
        have h1n : 97 ≤ c.val.toNat := by simpa using (hle _ _).mp h1
        have h2n : c.val.toNat ≤ 122 := by simpa using (hle _ _).mp h2
        rw [if_pos ⟨h1n, h2n⟩]
        have hv : Nat.isValidChar (c.val.toNat - 32) := Or.inl (by omega)
        have hval : (Char.ofNat (c.val.toNat - 32)).val.toNat
            = c.val.toNat - 32 := by
          rw [Char.ofNat, dif_pos hv]
          rfl
        rw [Bool.and_eq_false_iff]
        left
        rw [decide_eq_false_iff_not]
        intro hge
        have h3 := (hle _ _).mp hge
        rw [hval] at h3
        have h97 : (97 : UInt32).toNat = 97 := by decide
        rw [h97] at h3
        omega
      simp only [pascalCase, pascalGo, if_neg hcm, if_true]
      simp [isKebabCase, hup]
  rw [hfalse, h]
  simp

/-- A cache is coherent for `ta` when every entry stores exactly the
uncached recomputation for its key. The empty cache is coherent, and
`getTargetAttrs` preserves coherence. -/
def CoherentCache (ta : TargetAttrs) (cache : Cache) : Prop :=
  ∀ k v, alookup k cache = some v → v = getTargetAttrsNoCache ta k

/-- Modelled from the spec: the rule's `DEFAULT_ATTRIBUTES` constant after
`parseTargetAttrs`. Its one pattern key is `/.+/`, whose `test` accepts
every nonempty tag name (`regexp.toRegExp` is outside the sources). -/
def DEFAULT_ATTRIBUTES : TargetAttrs where
  names :=
    [("input".toList, ["placeholder".toList]),
     ("img".toList, ["alt".toList])]
  regexps :=
    [⟨fun s => !s.isEmpty,
      ["title".toList, "aria-label".toList, "aria-placeholder".toList,
       "aria-roledescription".toList, "aria-valuetext".toList]⟩]

/-- A directive value expression, as `getStringValue` looks at it: a
`Literal` whose runtime value is a string, a `Literal` whose value is not a
string, or any other (dynamic) expression kind. -/
inductive ExprNode where
  | strLit (value : List Char)
  | otherLit
  | dynamic

/-- A `VExpressionContainer`: its `expression` is `null` for an empty or
unparsable binding. -/
structure VExpressionContainer where
  expression : Option ExprNode

/-- The rule's `getStringValue`: the string value of the container's
expression when that expression is a string `Literal`, otherwise `null`. -/
def getStringValue (value : VExpressionContainer) : Option (List Char) :=
  match value.expression with
  | none => none
  | some (.strLit s) => some s
  | some .otherLit => none
  | some .dynamic => none

/-- An attribute node of the template AST: `plain` is a `VAttribute` with
`directive === false` (key raw name, optional literal value string) and
`directive` a `VDirective` (the identifier name of its key, so `text` for
`v-text`, and an optional expression container as value). -/
inductive AttrNode where
  | plain (keyRawName : List Char) (value : Option (List Char))
  | directive (keyName : List Char) (value : Option VExpressionContainer)

/-- One frame of the rule's `elementStack`: the raw tag name and the
resolved target-attribute set of one open element. The enclosing `upper`
link is the tail of the `List ElementFrame` the visitor threads; a `null`
stack is the empty list. -/
structure ElementFrame where
  name : List Char
  attrs : List (List Char)

/-- A reported finding: `unexpected` for bare text content, and
`unexpectedInAttr` with the attribute or directive name for a bare value
inside a named attribute or directive. -/
inductive Finding where
  | unexpected
  | unexpectedInAttr (attr : List Char)
deriving DecidableEq

/-- A hard failure of the analysis: the JavaScript `TypeError` raised by
reading `.attrs` or `.upper` off a `null` element stack. -/
inductive VisitError where
  | nullContext
deriving DecidableEq

/-- The rule options after `create` reads them: the whitelist, the parsed
attribute targets and the directive target names. -/
structure RuleConfig where
  whitelist : List (List Char)
  attributes : TargetAttrs
  directives : List (List Char)

/-- The body of the `VAttribute` visitor: skip a node with no value; for a
plain attribute read `elementStack.attrs` (a `TypeError` when the stack is
`null`), check membership of the key raw name, and report when the literal
value is bare; for a directive rebuild the canonical `v-` name, check it
against the configured directive targets, and report when the bound
expression is a string literal whose value is bare. -/
def visitAttribute (directives : List (List Char)) (wl : List (List Char))
    (stack : List ElementFrame) (node : AttrNode) :
    Except VisitError (List Finding) :=
  match node with
  | .plain keyRawName value =>
    match value with
    | none => .ok []
    | some v =>
      match stack with
      | [] => .error .nullContext
      | frame :: _ =>
        if keyRawName ∈ frame.attrs then
          if getBareString wl v ≠ [] then .ok [.unexpectedInAttr keyRawName]
          else .ok []
        else .ok []
  | .directive keyName value =>
    match value with
    | none => .ok []
    | some v =>
      let dname := 'v' :: '-' :: keyName
      if dname ∈ directives then
        match getStringValue v with
        | none => .ok []
        | some str =>
          if str ≠ [] ∧ getBareString wl str ≠ [] then
            .ok [.unexpectedInAttr dname]
          else .ok []
      else .ok []

/-- A node of the template body: an element (raw tag name, attribute nodes,
children) or a text node. -/
inductive VNode where
  | element (rawName : List Char) (attrs : List AttrNode) (children : List VNode)
  | text (value : List Char)

/-- Visit the attribute nodes of one element in order, with the element
stack that was in effect when its start tag was entered. -/
def visitAttrList (cfg : RuleConfig) (stack : List ElementFrame) :
    List AttrNode → Except VisitError (List Finding)
  | [] => .ok []
  | a :: rest =>
    match visitAttribute cfg.directives cfg.whitelist stack a with
    | .error e => .error e
    | .ok fs =>
      match visitAttrList cfg stack rest with
      | .error e => .error e
      | .ok fs2 => .ok (fs ++ fs2)

mutual

/-- The traversal on one node. A text node reports when its value is bare.
An element pushes a frame with its raw name and resolved attribute targets
(`VElement`), visits its attributes and then its children, and on exit
replaces the stack by `elementStack.upper` (`VElement:exit`) — reading
`.upper` off a `null` stack is the same hard failure as in the attribute
visitor. Returns the element stack and cache after the node, with the
findings in report order. -/
def visitNode (cfg : RuleConfig) (stack : List ElementFrame) (cache : Cache) :
    VNode → Except VisitError (List ElementFrame × Cache × List Finding)
  | .text value =>
    if getBareString cfg.whitelist value ≠ [] then .ok (stack, cache, [.unexpected])
    else .ok (stack, cache, [])
  | .element rawName attrs children =>
    let rc := getTargetAttrs cfg.attributes cache rawName
    let stack1 : List ElementFrame := ⟨rawName, rc.1⟩ :: stack
    match visitAttrList cfg stack1 attrs with
    | .error e => .error e
    | .ok fs1 =>
      match visitNodes cfg stack1 rc.2 children with
      | .error e => .error e
      | .ok (stack2, cache2, fs2) =>
        match stack2 with
        | [] => .error .nullContext
        | _ :: rest => .ok (rest, cache2, fs1 ++ fs2)

/-- The traversal on a list of sibling nodes, threading stack and cache. -/
def visitNodes (cfg : RuleConfig) (stack : List ElementFrame) (cache : Cache) :
    List VNode → Except VisitError (List ElementFrame × Cache × List Finding)
  | [] => .ok (stack, cache, [])
  | n :: rest =>
    match visitNode cfg stack cache n with
    | .error e => .error e
    | .ok (s1, c1, f1) =>
      match visitNodes cfg s1 c1 rest with
      | .error e => .error e
      | .ok (s2, c2, f2) => .ok (s2, c2, f1 ++ f2)

end

/-- The whitelist of the worked example in the spec: parenthesis, closing
parenthesis and period. -/
def parenWhitelist : List (List Char) := [['('], [')'], ['.']]

/-- A configuration with the example whitelist, the default attribute
targets and the default directive targets. -/
def parenConfig : RuleConfig where
  whitelist := parenWhitelist
  attributes := DEFAULT_ATTRIBUTES
  directives := DEFAULT_DIRECTIVES

/-- The default configuration of the rule. -/
def defaultConfig : RuleConfig where
  whitelist := DEFAULT_WHITELIST
  attributes := DEFAULT_ATTRIBUTES
  directives := DEFAULT_DIRECTIVES

/-- A small attribute-target table used in concrete instances: `title` is
checked on `div` tags, and there are no pattern entries. -/
def simpleAttrs : TargetAttrs where
  names := [("div".toList, ["title".toList])]
  regexps := []

/-- A small configuration used in concrete instances. -/
def simpleConfig : RuleConfig where
  whitelist := parenWhitelist
  attributes := simpleAttrs
  directives := DEFAULT_DIRECTIVES

/-! ## Helper lemmas -/

/-- The PascalCase form of a kebab-case name is not itself kebab-case: its
first character is upcased, and an upcased basic latin letter is not
lowercase. This is the guard that stops the alias recursion. -/
theorem pascal_not_kebab (s : List Char) (h : isKebabCase s = true) :
    isKebabCase (pascalCase s) = false := by
  cases s with
  | nil => simp [isKebabCase] at h
  | cons c rest =>
    simp only [isKebabCase, Bool.and_eq_true] at h
    have hc : c.isLower = true := h.1
    have hcm : ¬ (c = '-') := by
      intro e
      rw [e] at hc
      exact absurd hc (by decide)
    have hle : ∀ (a b : UInt32), a ≤ b ↔ a.toNat ≤ b.toNat := by
      intro a b
      rw [UInt32.le_def]
      exact Iff.rfl
    have hup : (c.toUpper).isLower = false := by
      simp only [Char.isLower, Char.toUpper, Char.toNat, decide_eq_true_eq,
        Bool.and_eq_true] at hc ⊢
      obtain ⟨h1, h2⟩ := hc
      have h1n : 97 ≤ c.val.toNat := by simpa using (hle _ _).mp h1
      have h2n : c.val.toNat ≤ 122 := by simpa using (hle _ _).mp h2
      rw [if_pos ⟨h1n, h2n⟩]
      have hv : Nat.isValidChar (c.val.toNat - 32) := Or.inl (by omega)
      have hval : (Char.ofNat (c.val.toNat - 32)).val.toNat
          = c.val.toNat - 32 := by
        rw [Char.ofNat, dif_pos hv]
        rfl
      rw [Bool.and_eq_false_iff]
      left
      rw [decide_eq_false_iff_not]
      intro hge
      have h3 := (hle _ _).mp hge
      rw [hval] at h3
      have h97 : (97 : UInt32).toNat = 97 := by decide
      rw [h97] at h3
      omega
    simp only [pascalCase, pascalGo, if_neg hcm, if_true]
    simp [isKebabCase, hup]

/-- Membership in a JavaScript `Set` built from a list is membership in
the list. -/
theorem mem_setOfList (l : List (List Char)) (x : List Char) :
    x ∈ setOfList l ↔ x ∈ l := by
  induction l with
  | nil => simp [setOfList]
  | cons a rest ih =>
    simp only [setOfList, List.mem_cons, List.mem_filter, ih]
    constructor
    · rintro (h | ⟨h, _⟩)
      · exact Or.inl h
      · exact Or.inr h
    · rintro (h | h)
      · exact Or.inl h
      · by_cases hx : x = a
        · exact Or.inl hx
        · exact Or.inr ⟨h, by simpa using hx⟩

/-- Membership in the pattern part of the resolution: some pattern entry
accepts the tag name and contributes the attribute. -/
theorem mem_regexpAttrs (ta : TargetAttrs) (t x : List Char) :
    x ∈ regexpAttrs ta t ↔ ∃ e ∈ ta.regexps, e.name t = true ∧ x ∈ e.attrs := by
  simp only [regexpAttrs, List.mem_flatten, List.mem_map]
  constructor
  · rintro ⟨l, ⟨e, he, rfl⟩, hx⟩
    by_cases hn : e.name t = true
    · exact ⟨e, he, hn, by simpa [hn] using hx⟩
    · simp [hn] at hx
  · rintro ⟨e, he, hn, hx⟩
    exact ⟨if e.name t then e.attrs else [], ⟨e, he, rfl⟩, by simpa [hn] using hx⟩

/-- Unfolding of the uncached resolution at a kebab-case name: base parts
plus one alias hop. -/
theorem getTargetAttrsNoCache_kebab (ta : TargetAttrs) (t : List Char)
    (h : isKebabCase t = true) :
    getTargetAttrsNoCache ta t
      = setOfList (namesAttrs ta t ++ regexpAttrs ta t
          ++ getTargetAttrsNoCache ta (pascalCase t)) := by
  rw [getTargetAttrsNoCache]
  simp [h]

/-- Unfolding of the uncached resolution at a name that is not kebab-case:
base parts only, no alias hop. -/
theorem getTargetAttrsNoCache_nonkebab (ta : TargetAttrs) (t : List Char)
    (h : isKebabCase t = false) :
    getTargetAttrsNoCache ta t
      = setOfList (namesAttrs ta t ++ regexpAttrs ta t) := by
  rw [getTargetAttrsNoCache]
  simp [h]

/-- The empty cache is coherent for every configuration. -/
theorem coherent_nil (ta : TargetAttrs) : CoherentCache ta [] := by
  intro k v h
  simp [alookup] at h

/-- Resolution through the cache agrees with the uncached recomputation,
preserves cache coherence, and leaves the queried name cached: the case of
a name that is not kebab-case (no alias hop). -/
theorem getTargetAttrs_spec_nonkebab (ta : TargetAttrs) (c : Cache)
    (t : List Char) (hk : isKebabCase t = false) (hco : CoherentCache ta c) :
    (getTargetAttrs ta c t).1 = getTargetAttrsNoCache ta t ∧
    CoherentCache ta (getTargetAttrs ta c t).2 ∧
    alookup t (getTargetAttrs ta c t).2
      = some (getTargetAttrsNoCache ta t) := by
  cases halo : alookup t c with
  | some v =>
    have hv : v = getTargetAttrsNoCache ta t := hco t v halo
    rw [getTargetAttrs.eq_def, halo]
    exact ⟨hv, hco, by rw [halo, hv]⟩
  | none =>
    rw [getTargetAttrs.eq_def, halo]
    simp only [hk, Bool.false_eq_true, dite_false]
    refine ⟨(getTargetAttrsNoCache_nonkebab ta t hk).symm, ?_, ?_⟩
    · intro k v h
      rw [alookup] at h
      by_cases hkt : k = t
      · subst hkt
        rw [if_pos rfl] at h
        cases h
        exact (getTargetAttrsNoCache_nonkebab ta k hk).symm
      · rw [if_neg hkt] at h
        exact hco k v h
    · rw [alookup, if_pos rfl, getTargetAttrsNoCache_nonkebab ta t hk]

/-- Resolution through the cache agrees with the uncached recomputation,
preserves cache coherence, and leaves the queried name cached. -/
theorem getTargetAttrs_spec (ta : TargetAttrs) (c : Cache) (t : List Char)
    (hco : CoherentCache ta c) :
    (getTargetAttrs ta c t).1 = getTargetAttrsNoCache ta t ∧
    CoherentCache ta (getTargetAttrs ta c t).2 ∧
    alookup t (getTargetAttrs ta c t).2
      = some (getTargetAttrsNoCache ta t) := by
  by_cases hk : isKebabCase t = true
  · cases halo : alookup t c with
    | some v =>
      have hv : v = getTargetAttrsNoCache ta t := hco t v halo
      rw [getTargetAttrs.eq_def, halo]
      exact ⟨hv, hco, by rw [halo, hv]⟩
    | none =>
      have hpk : isKebabCase (pascalCase t) = false := pascal_not_kebab t hk
      obtain ⟨hi1, hi2, _⟩ :=
        getTargetAttrs_spec_nonkebab ta c (pascalCase t) hpk hco
      rw [getTargetAttrs.eq_def, halo]
      simp only [hk, dite_true]
      have hr : setOfList (namesAttrs ta t ++ regexpAttrs ta t
            ++ (getTargetAttrs ta c (pascalCase t)).1)
          = getTargetAttrsNoCache ta t := by
        rw [hi1, getTargetAttrsNoCache_kebab ta t hk]
      refine ⟨hr, ?_, ?_⟩
      · intro k v h
        rw [alookup] at h
        by_cases hkt : k = t
        · subst hkt
          rw [if_pos rfl] at h
          cases h
          exact hr
        · rw [if_neg hkt] at h
          exact hi2 k v h
      · rw [alookup, if_pos rfl, hr]
  · exact getTargetAttrs_spec_nonkebab ta c t (by simpa using hk) hco

/-- Dropping a prefix of matching elements twice is the same as dropping it
once: the first element that survives fails the predicate. -/
theorem dropWhile_twice {α : Type} (p : α → Bool) (l : List α) :
    (l.dropWhile p).dropWhile p = l.dropWhile p := by
  induction l with
  | nil => simp
  | cons a as ih =>
    by_cases hpa : p a
    · simp [List.dropWhile_cons, hpa, ih]
    · simp [List.dropWhile_cons, hpa]

/-- A list that dropping leaves unchanged starts with an element that
fails the predicate. -/
theorem dropWhile_eq_self_head_false {α : Type} (p : α → Bool) (b : α)
    (z : List α) (h : List.dropWhile p (b :: z) = b :: z) : p b = false := by
  by_cases hb : p b = true
  · rw [List.dropWhile_cons_of_pos hb] at h
    have hlen := congrArg List.length h
    have hle := List.Sublist.length_le (List.dropWhile_sublist (l := z) p)
    simp at hlen
    omega
  · simpa using hb

/-- Trimming is idempotent. -/
theorem jsTrim_idem (s : List Char) : jsTrim (jsTrim s) = jsTrim s := by
  simp only [jsTrim]
  set A := s.dropWhile wsChar with hA
  set B := A.reverse.dropWhile wsChar with hB
  have claim1 : B.reverse.dropWhile wsChar = B.reverse := by
    cases hc : B.reverse with
    | nil => simp
    | cons b bs =>
      have hpre : B.reverse <+: A := by
        have h1 : B <:+ A.reverse := by
          rw [hB]
          exact List.dropWhile_suffix wsChar
        have h2 : B.reverse <+: A.reverse.reverse := List.reverse_prefix.mpr h1
        rwa [List.reverse_reverse] at h2
      obtain ⟨tl, htl⟩ := hpre
      rw [hc] at htl
      have hAself : A.dropWhile wsChar = A := by
        rw [hA, dropWhile_twice]
      rw [← htl] at hAself
      simp only [List.cons_append] at hAself
      have hw : wsChar b = false :=
        dropWhile_eq_self_head_false wsChar b (bs ++ tl) hAself
      simp [List.dropWhile_cons, hw]
  rw [claim1, List.reverse_reverse, hB, dropWhile_twice]

/-- Every character of the trimmed string occurs in the original. -/
theorem jsTrim_subset (s : List Char) : ∀ a ∈ jsTrim s, a ∈ s := by
  intro a ha
  simp only [jsTrim, List.mem_reverse] at ha
  have h1 := List.dropWhile_subset (l := (s.dropWhile wsChar).reverse) wsChar ha
  rw [List.mem_reverse] at h1
  exact List.dropWhile_subset wsChar h1

/-- Trimming an all-whitespace string leaves nothing. -/
theorem jsTrim_eq_nil (s : List Char) (h : ∀ c ∈ s, wsChar c = true) :
    jsTrim s = [] := by
  have h1 : s.dropWhile wsChar = [] := List.dropWhile_eq_nil_iff.mpr h
  simp [jsTrim, h1]

/-- With single-character whitelist entries the global replace is exactly a
character filter: a character survives iff it is no whitelist entry. -/
theorem removeMatches_of_singletons (pats : List (List Char))
    (hp : ∀ p ∈ pats, p.length = 1) (s : List Char) :
    removeMatches pats s = s.filter (fun c => !(pats.contains [c])) := by
  induction s with
  | nil =>
    rw [removeMatches]
    simp
  | cons c rest ih =>
    rw [removeMatches]
    cases hfa : firstAlt pats (c :: rest) with
    | none =>
      rw [firstAlt, List.find?_eq_none] at hfa
      have hnc : ¬ ([c] ∈ pats) := by
        intro hmem
        exact hfa [c] hmem (by
          rw [List.isPrefixOf_iff_prefix]
          exact ⟨rest, rfl⟩)
      simp only [List.filter_cons]
      rw [if_pos (by simpa using hnc)]
      simpa using ih
    | some q =>
      rw [firstAlt] at hfa
      have hq1 : q ∈ pats := List.mem_of_find?_eq_some hfa
      have hq2 := List.find?_some hfa
      simp only [] at hq2
      have hql : q.length = 1 := hp q hq1
      cases q with
      | nil => simp at hql
      | cons x xs =>
        have hxs : xs = [] := by
          simp at hql
          exact hql
        subst hxs
        have hxc : x = c := by
          rw [List.isPrefixOf_iff_prefix] at hq2
          obtain ⟨tl, htl⟩ := hq2
          simpa using congrArg (List.head?) htl
        subst hxc
        simp only [List.filter_cons]
        rw [if_neg (by simpa using hq1)]
        simpa using ih

mutual

/-- A successful visit of one node restores the element stack it started
with: the frame pushed on element enter is popped on exit. -/
theorem visitNode_stack_aux (cfg : RuleConfig) (st : List ElementFrame)
    (c : Cache) (n : VNode) (r : List ElementFrame × Cache × List Finding)
    (h : visitNode cfg st c n = .ok r) : r.1 = st := by
  cases n with
  | text v =>
    rw [visitNode] at h
    split at h
    · cases h
      rfl
    · cases h
      rfl
  | element rawName attrs children =>
    rw [visitNode] at h
    split at h
    · exact absurd h (by simp)
    · rename_i fs1 h1
      split at h
      · exact absurd h (by simp)
      · rename_i s2 c2 f2 h2
        have hs2 : s2
            = ⟨rawName, (getTargetAttrs cfg.attributes c rawName).1⟩ :: st := by
          simpa using visitNodes_stack_aux cfg _ _ children _ h2
        rw [hs2] at h
        cases h
        rfl

/-- A successful visit of a sibling list restores the element stack it
started with. -/
theorem visitNodes_stack_aux (cfg : RuleConfig) (st : List ElementFrame)
    (c : Cache) (ns : List VNode)
    (r : List ElementFrame × Cache × List Finding)
    (h : visitNodes cfg st c ns = .ok r) : r.1 = st := by
  cases ns with
  | nil =>
    rw [visitNodes] at h
    cases h
    rfl
  | cons n rest =>
    rw [visitNodes] at h
    split at h
    · exact absurd h (by simp)
    · rename_i s1 c1 f1 h1
      have e1 : s1 = st := by
        simpa using visitNode_stack_aux cfg st c n _ h1
      split at h
      · exact absurd h (by simp)
      · rename_i s2 c2 f2 h2
        have e2 : s2 = s1 := by
          simpa using visitNodes_stack_aux cfg s1 c1 rest _ h2
        cases h
        simp [e1, e2]

end

/-! ## Claim theorems -/

/-- C9: an attribute or directive node with no value produces no finding
and no error, whatever the stack, the directive targets and the whitelist
are — the node is skipped before any stack read, target-set lookup or
directive-name check. -/
theorem valueless_attr_skipped (dirs wl : List (List Char))
    (st : List ElementFrame) (key nm : List Char) :
    visitAttribute dirs wl st (AttrNode.plain key none) = .ok [] ∧
    visitAttribute dirs wl st (AttrNode.directive nm none) = .ok [] :=
  ⟨rfl, rfl⟩

/-- C10: the directive path never consults the element stack: the visit of
a directive node gives the same result under any two stacks (in particular
the enclosing element and its resolved attribute targets are irrelevant to
whether a directive finding is emitted). -/
theorem directive_ignores_stack (dirs wl : List (List Char))
    (st1 st2 : List ElementFrame) (nm : List Char)
    (v : Option VExpressionContainer) :
    visitAttribute dirs wl st1 (AttrNode.directive nm v)
      = visitAttribute dirs wl st2 (AttrNode.directive nm v) :=
  rfl

/-- C8 counterexample: with an empty element stack, a directive visit with
a bare literal value reports a finding and a valueless plain attribute is
skipped — neither raises, so not every attribute visit on an empty stack is
a hard failure. -/
theorem emptyStack_not_always_error :
    visitAttribute DEFAULT_DIRECTIVES DEFAULT_WHITELIST []
        (AttrNode.directive ("text".toList)
          (some ⟨some (ExprNode.strLit ("Hello".toList))⟩))
      = .ok [Finding.unexpectedInAttr ("v-text".toList)] ∧
    visitAttribute DEFAULT_DIRECTIVES DEFAULT_WHITELIST []
        (AttrNode.plain ("title".toList) none) = .ok [] := by
  constructor
  · simp [visitAttribute, getStringValue, DEFAULT_DIRECTIVES, getBareString,
      jsTrim, removeMatches.eq_def, firstAlt, DEFAULT_WHITELIST, wsChar]
  · rfl

/-- C8 (amended): a plain (non-directive) attribute that has a value,
visited while the element stack is empty, makes the analysis fail hard
(the `TypeError` of reading `.attrs` off `null`), never a silent skip;
valueless nodes and directives return before touching the stack. -/
theorem plain_attr_empty_stack_error (dirs wl : List (List Char))
    (key v : List Char) :
    visitAttribute dirs wl [] (AttrNode.plain key (some v))
      = .error .nullContext :=
  rfl

/-- C5: a directive produces a finding only when its canonical name (the
`v-` binding prefix plus its identifier name) is a configured directive
target and its bound expression is a syntactic string literal whose value
is bare, in which case the one finding names the directive; an expression
that is not a string literal never produces a finding; with the default
directive targets, a `v-text` bound to the literal string `Hello` yields
one finding naming `v-text` and a `v-text` bound to a dynamic expression
yields none. -/
theorem directive_literal_only :
    (∀ (dirs wl : List (List Char)) (st : List ElementFrame)
        (nm : List Char) (cont : VExpressionContainer) (fs : List Finding),
        visitAttribute dirs wl st (AttrNode.directive nm (some cont))
          = .ok fs →
        fs ≠ [] →
        ('v' :: '-' :: nm) ∈ dirs ∧
        ∃ s, getStringValue cont = some s ∧ getBareString wl s ≠ [] ∧
          fs = [Finding.unexpectedInAttr ('v' :: '-' :: nm)]) ∧
    (∀ (dirs wl : List (List Char)) (st : List ElementFrame)
        (nm : List Char) (cont : VExpressionContainer),
        getStringValue cont = none →
        visitAttribute dirs wl st (AttrNode.directive nm (some cont))
          = .ok []) ∧
    visitAttribute DEFAULT_DIRECTIVES DEFAULT_WHITELIST []
        (AttrNode.directive ("text".toList)
          (some ⟨some (ExprNode.strLit ("Hello".toList))⟩))
      = .ok [Finding.unexpectedInAttr ("v-text".toList)] ∧
    visitAttribute DEFAULT_DIRECTIVES DEFAULT_WHITELIST []
        (AttrNode.directive ("text".toList) (some ⟨some ExprNode.dynamic⟩))
      = .ok [] := by
  refine ⟨?_, ?_, ?_, ?_⟩
  · intro dirs wl st nm cont fs h hne
    rw [visitAttribute] at h
    split at h
    · rename_i hmem
      split at h
      · cases h
        exact absurd rfl hne
      · rename_i str hstr
        split at h
        · rename_i hbare
          cases h
          exact ⟨hmem, str, hstr, hbare.2, rfl⟩
        · cases h
          exact absurd rfl hne
    · cases h
      exact absurd rfl hne
  · intro dirs wl st nm cont hnone
    rw [visitAttribute]
    split
    · rw [hnone]
    · rfl
  · simp [visitAttribute, getStringValue, DEFAULT_DIRECTIVES, getBareString,
      jsTrim, removeMatches.eq_def, firstAlt, DEFAULT_WHITELIST, wsChar]
  · rfl

/-- C2: a text node yields a `bare text` finding exactly when
`getBareString` leaves something of its value (trim, delete every
whitelist match, trim again), and never alters stack or cache; an
all-whitespace or empty value never yields a finding; with whitelist
`(`, `)`, `.` the text `(hello).` yields exactly one finding and the text
`().` yields none. -/
theorem bareText_report_iff :
    (∀ (cfg : RuleConfig) (st : List ElementFrame) (c : Cache)
        (v : List Char),
        visitNode cfg st c (VNode.text v)
          = .ok (st, c,
              if getBareString cfg.whitelist v = [] then []
              else [Finding.unexpected])) ∧
    (∀ (cfg : RuleConfig) (st : List ElementFrame) (c : Cache)
        (v : List Char),
        (∀ ch ∈ v, wsChar ch = true) →
        visitNode cfg st c (VNode.text v) = .ok (st, c, [])) ∧
    visitNode parenConfig [] [] (VNode.text ("(hello).".toList))
      = .ok ([], [], [Finding.unexpected]) ∧
    getBareString parenWhitelist ("(hello).".toList) = "hello".toList ∧
    visitNode parenConfig [] [] (VNode.text ("().".toList))
      = .ok ([], [], []) := by
  have hnil : ∀ (cfg : RuleConfig) (st : List ElementFrame) (c : Cache)
      (v : List Char),
      visitNode cfg st c (VNode.text v)
        = .ok (st, c,
            if getBareString cfg.whitelist v = [] then []
            else [Finding.unexpected]) := by
    intro cfg st c v
    rw [visitNode]
    by_cases hb : getBareString cfg.whitelist v = []
    · rw [if_neg (by simpa using hb), if_pos hb]
    · rw [if_pos hb, if_neg hb]
  refine ⟨hnil, ?_, ?_, ?_, ?_⟩
  · intro cfg st c v hws
    rw [hnil]
    have h1 : jsTrim v = [] := jsTrim_eq_nil v hws
    have h2 : getBareString cfg.whitelist v = [] := by
      rw [getBareString, h1, removeMatches]
      simp [jsTrim]
    rw [if_pos h2]
  · simp [visitNode, getBareString, jsTrim, removeMatches.eq_def, firstAlt,
      parenConfig, parenWhitelist, wsChar]
  · simp [getBareString, jsTrim, removeMatches.eq_def, firstAlt,
      parenWhitelist, wsChar]
  · simp [visitNode, getBareString, jsTrim, removeMatches.eq_def, firstAlt,
      parenConfig, parenWhitelist, wsChar]

/-- C2 witness: a tab-and-spaces text node produces no finding. -/
theorem bareText_report_iff_witness :
    visitNode parenConfig [] [] (VNode.text ([' ', '\t', ' ']))
      = .ok ([], [], []) :=
  bareText_report_iff.2.1 parenConfig [] [] [' ', '\t', ' '] (by decide)

/-- C3 counterexample: with the two-character whitelist entry `ab`,
stripping `aabb` removes the middle occurrence and creates a fresh `ab`,
so a second strip removes more — `strip` is not idempotent for every
configured whitelist. -/
theorem strip_not_idempotent :
    getBareString [['a', 'b']]
        (getBareString [['a', 'b']] ("aabb".toList))
      ≠ getBareString [['a', 'b']] ("aabb".toList) := by
  simp [getBareString, jsTrim, removeMatches.eq_def, firstAlt, wsChar]

/-- C3 (amended): for every whitelist all of whose entries are single
characters — the default whitelist is one — stripping is idempotent: the
stripped output contains no further whitelist matches. -/
theorem strip_idempotent_singletons (pats : List (List Char))
    (hp : ∀ p ∈ pats, p.length = 1) (s : List Char) :
    getBareString pats (getBareString pats s) = getBareString pats s := by
  have key : ∀ x : List Char, getBareString pats x
      = jsTrim ((jsTrim x).filter (fun c => !(pats.contains [c]))) := by
    intro x
    rw [getBareString, removeMatches_of_singletons pats hp]
  rw [key, key]
  set y := jsTrim ((jsTrim s).filter (fun c => !(pats.contains [c]))) with hy
  have hyP : ∀ a ∈ y, (fun c => !(pats.contains [c])) a = true := by
    intro a ha
    have h1 : a ∈ (jsTrim s).filter (fun c => !(pats.contains [c])) := by
      rw [hy] at ha
      exact jsTrim_subset _ a ha
    exact (List.mem_filter.mp h1).2
  have hytrim : jsTrim y = y := by rw [hy, jsTrim_idem]
  rw [hytrim, List.filter_eq_self.mpr hyP, hytrim]

/-- C3 witness: stripping twice with the default whitelist agrees with
stripping once on a concrete sentence. -/
theorem strip_idempotent_singletons_witness :
    getBareString DEFAULT_WHITELIST
        (getBareString DEFAULT_WHITELIST ("Hi there.".toList))
      = getBareString DEFAULT_WHITELIST ("Hi there.".toList) :=
  strip_idempotent_singletons DEFAULT_WHITELIST (by decide)
    ("Hi there.".toList)

/-- C4: the element stack mirrors the tree nesting. A successful visit of
any node returns exactly the stack it was entered with, so the
attribute-target set in effect right after an element exits is the one in
effect right before it was entered; and the attributes of an element are
visited with that element's own frame (its raw name and its resolved
target set) on top of the stack. -/
theorem elementStack_wellNested :
    (∀ (cfg : RuleConfig) (st : List ElementFrame) (c : Cache) (n : VNode)
        (r : List ElementFrame × Cache × List Finding),
        visitNode cfg st c n = .ok r → r.1 = st) ∧
    (∀ (cfg : RuleConfig) (st : List ElementFrame) (c : Cache)
        (nm : List Char) (ats : List AttrNode) (ch : List VNode)
        (r : List ElementFrame × Cache × List Finding),
        visitNode cfg st c (VNode.element nm ats ch) = .ok r →
        ∃ fs1 rest,
          visitAttrList cfg
              (⟨nm, (getTargetAttrs cfg.attributes c nm).1⟩ :: st) ats
            = .ok fs1 ∧
          r.2.2 = fs1 ++ rest) := by
  constructor
  · exact visitNode_stack_aux
  · intro cfg st c nm ats ch r h
    rw [visitNode] at h
    split at h
    · exact absurd h (by simp)
    · rename_i fs1 h1
      split at h
      · exact absurd h (by simp)
      · rename_i s2 c2 f2 h2
        split at h
        · exact absurd h (by simp)
        · cases h
          exact ⟨fs1, f2, h1, rfl⟩

/-- C4 witness: a concrete `div` with a bare `title` attribute and a text
child, entered above a `body` frame, is left with exactly that `body`
frame after its exit. -/
theorem elementStack_wellNested_witness :
    ∃ r, visitNode simpleConfig [⟨"body".toList, []⟩] []
        (VNode.element ("div".toList)
          [AttrNode.plain ("title".toList) (some ("Ok".toList))]
          [VNode.text ("().".toList)]) = .ok r ∧
      r.1 = [⟨"body".toList, []⟩] := by
  cases hv : visitNode simpleConfig [⟨"body".toList, []⟩] []
      (VNode.element ("div".toList)
        [AttrNode.plain ("title".toList) (some ("Ok".toList))]
        [VNode.text ("().".toList)]) with
  | error e =>
    rw [visitNode] at hv
    simp [visitAttrList, visitAttribute, visitNodes, visitNode,
      getTargetAttrs.eq_def, alookup, namesAttrs, regexpAttrs, setOfList,
      isKebabCase, pascalCase, pascalGo, simpleConfig, simpleAttrs,
      getBareString, jsTrim, removeMatches.eq_def, firstAlt, parenWhitelist,
      wsChar] at hv
  | ok r =>
    exact ⟨r, rfl, elementStack_wellNested.1 _ _ _ _ _ hv⟩

/-- C1: resolution returns exactly the union of the exact-name entry for
the tag (case-sensitive), the attribute sets of every pattern entry whose
pattern matches the tag, and, when the tag is written in kebab-case, the
resolution of its PascalCase form. Stated for any coherent cache (the
empty cache of a fresh run is one). -/
theorem getTargetAttrs_union (ta : TargetAttrs) (c : Cache) (t : List Char)
    (hco : CoherentCache ta c) (x : List Char) :
    x ∈ (getTargetAttrs ta c t).1 ↔
      (x ∈ namesAttrs ta t ∨
       (∃ e ∈ ta.regexps, e.name t = true ∧ x ∈ e.attrs) ∨
       (isKebabCase t = true
        ∧ x ∈ (getTargetAttrs ta c (pascalCase t)).1)) := by
  have h1 := (getTargetAttrs_spec ta c t hco).1
  rw [h1]
  by_cases hk : isKebabCase t = true
  · have hpk := pascal_not_kebab t hk
    have h2 := (getTargetAttrs_spec ta c (pascalCase t) hco).1
    rw [h2, getTargetAttrsNoCache_kebab ta t hk, mem_setOfList]
    simp only [List.mem_append, mem_regexpAttrs, hk, true_and]
    constructor
    · rintro ((h | h) | h)
      · exact Or.inl h
      · exact Or.inr (Or.inl h)
      · exact Or.inr (Or.inr h)
    · rintro (h | h | h)
      · exact Or.inl (Or.inl h)
      · exact Or.inl (Or.inr h)
      · exact Or.inr h
  · rw [getTargetAttrsNoCache_nonkebab ta t (by simpa using hk), mem_setOfList]
    simp only [List.mem_append, mem_regexpAttrs, hk]
    simp

/-- C1 witness: with the default attribute targets and an empty cache,
`placeholder` is resolved for the `input` tag, and the union
characterization holds there. -/
theorem getTargetAttrs_union_witness :
    CoherentCache DEFAULT_ATTRIBUTES [] ∧
    ("placeholder".toList
        ∈ (getTargetAttrs DEFAULT_ATTRIBUTES [] ("input".toList)).1 ↔
      ("placeholder".toList ∈ namesAttrs DEFAULT_ATTRIBUTES ("input".toList) ∨
       (∃ e ∈ DEFAULT_ATTRIBUTES.regexps, e.name ("input".toList) = true
          ∧ "placeholder".toList ∈ e.attrs) ∨
       (isKebabCase ("input".toList) = true ∧
        "placeholder".toList
          ∈ (getTargetAttrs DEFAULT_ATTRIBUTES []
              (pascalCase ("input".toList))).1))) :=
  ⟨coherent_nil _,
   getTargetAttrs_union DEFAULT_ATTRIBUTES [] ("input".toList)
     (coherent_nil _) ("placeholder".toList)⟩

/-- C6: resolution is memoized per tag name. After one resolution, a
second resolution of the same name returns the stored cache entry itself
and leaves the cache untouched, and the returned set is the uncached
recomputation of the resolution algorithm. Stated for any coherent cache
(the empty cache of a fresh run is one). -/
theorem getTargetAttrs_memoized (ta : TargetAttrs) (c : Cache)
    (t : List Char) (hco : CoherentCache ta c) :
    getTargetAttrs ta (getTargetAttrs ta c t).2 t
      = ((getTargetAttrs ta c t).1, (getTargetAttrs ta c t).2) ∧
    (getTargetAttrs ta c t).1 = getTargetAttrsNoCache ta t := by
  obtain ⟨h1, _, h3⟩ := getTargetAttrs_spec ta c t hco
  refine ⟨?_, h1⟩
  conv_lhs => rw [getTargetAttrs.eq_def]
  rw [h3, h1]

/-- C6 witness: resolving `div` twice from the empty cache gives the same
set without touching the cache written by the first call, and that set is
the uncached recomputation. -/
theorem getTargetAttrs_memoized_witness :
    getTargetAttrs simpleAttrs
        (getTargetAttrs simpleAttrs [] ("div".toList)).2 ("div".toList)
      = ((getTargetAttrs simpleAttrs [] ("div".toList)).1,
         (getTargetAttrs simpleAttrs [] ("div".toList)).2) ∧
    (getTargetAttrs simpleAttrs [] ("div".toList)).1
      = getTargetAttrsNoCache simpleAttrs ("div".toList) :=
  getTargetAttrs_memoized simpleAttrs [] ("div".toList) (coherent_nil _)

/-- C7: the kebab-to-Pascal alias is one-directional and one hop deep: a
kebab-case name resolves to its base parts plus the fully unfolded
resolution of its PascalCase form, which is itself not kebab-case and so
triggers no further alias resolution; a name that is not kebab-case
resolves to its base parts alone. The resolver is a total function. -/
theorem kebab_alias_single_hop (ta : TargetAttrs) (t : List Char) :
    (isKebabCase t = true →
      isKebabCase (pascalCase t) = false ∧
      getTargetAttrsNoCache ta t
        = setOfList (namesAttrs ta t ++ regexpAttrs ta t
            ++ setOfList (namesAttrs ta (pascalCase t)
                ++ regexpAttrs ta (pascalCase t)))) ∧
    (isKebabCase t = false →
      getTargetAttrsNoCache ta t
        = setOfList (namesAttrs ta t ++ regexpAttrs ta t)) := by
  constructor
  · intro hk
    have hpk := pascal_not_kebab t hk
    refine ⟨hpk, ?_⟩
    rw [getTargetAttrsNoCache_kebab ta t hk,
      getTargetAttrsNoCache_nonkebab ta (pascalCase t) hpk]
  · intro hk
    exact getTargetAttrsNoCache_nonkebab ta t hk

/-- C7 witness: the kebab-case tag `my-div` takes exactly one alias hop,
and its PascalCase form `MyDiv` is not kebab-case. -/
theorem kebab_alias_single_hop_witness :
    isKebabCase ("my-div".toList) = true ∧
    isKebabCase (pascalCase ("my-div".toList)) = false ∧
    getTargetAttrsNoCache simpleAttrs ("my-div".toList)
      = setOfList (namesAttrs simpleAttrs ("my-div".toList)
          ++ regexpAttrs simpleAttrs ("my-div".toList)
          ++ setOfList (namesAttrs simpleAttrs (pascalCase ("my-div".toList))
              ++ regexpAttrs simpleAttrs (pascalCase ("my-div".toList)))) := by
  have h := (kebab_alias_single_hop simpleAttrs ("my-div".toList)).1
    (by decide)
  exact ⟨by decide, h.1, h.2⟩

/-- C5 witness: a `v-text` directive whose container holds no expression
produces no finding. -/
theorem directive_literal_only_witness :
    visitAttribute DEFAULT_DIRECTIVES DEFAULT_WHITELIST []
        (AttrNode.directive ("text".toList) (some ⟨none⟩)) = .ok [] :=
  directive_literal_only.2.1 DEFAULT_DIRECTIVES DEFAULT_WHITELIST []
    ("text".toList) ⟨none⟩ rfl

/-- C8 witness: a concrete valued `title` attribute visited on the empty
stack raises the hard failure. -/
theorem plain_attr_empty_stack_error_witness :
    visitAttribute DEFAULT_DIRECTIVES DEFAULT_WHITELIST []
        (AttrNode.plain ("title".toList) (some ("Hi".toList)))
      = .error .nullContext :=
  plain_attr_empty_stack_error DEFAULT_DIRECTIVES DEFAULT_WHITELIST
    ("title".toList) ("Hi".toList)

/-- C9 witness: concrete valueless `title` attribute and `v-text`
directive nodes are skipped on the empty stack. -/
theorem valueless_attr_skipped_witness :
    visitAttribute DEFAULT_DIRECTIVES DEFAULT_WHITELIST []
        (AttrNode.plain ("title".toList) none) = .ok [] ∧
    visitAttribute DEFAULT_DIRECTIVES DEFAULT_WHITELIST []
        (AttrNode.directive ("text".toList) none) = .ok [] :=
  valueless_attr_skipped DEFAULT_DIRECTIVES DEFAULT_WHITELIST []
    ("title".toList) ("text".toList)

/-- C10 witness: a concrete `v-text` directive is classified identically
under the empty stack and under a `div` frame. -/
theorem directive_ignores_stack_witness :
    visitAttribute DEFAULT_DIRECTIVES DEFAULT_WHITELIST []
        (AttrNode.directive ("text".toList)
          (some ⟨some (ExprNode.strLit ("Hello".toList))⟩))
      = visitAttribute DEFAULT_DIRECTIVES DEFAULT_WHITELIST
          [⟨"div".toList, []⟩]
        (AttrNode.directive ("text".toList)
          (some ⟨some (ExprNode.strLit ("Hello".toList))⟩)) :=
  directive_ignores_stack DEFAULT_DIRECTIVES DEFAULT_WHITELIST []
    [⟨"div".toList, []⟩] ("text".toList)
    (some ⟨some (ExprNode.strLit ("Hello".toList))⟩)
